import Mathlib

/-!
Shallow embedding of the `lua-macros` crate (src/lib.rs): a marshalling
layer between a Lua-style value stack and typed host values.  The Lua VM
stack is modelled explicitly; each macro of the crate becomes a Lean
function over that model.
-/

namespace LuaMacros

/-- A dynamically typed Lua stack slot.  `number` carries an opaque payload
(no float arithmetic is performed by the crate).  `udata` is a userdata
cell: its `tag` models the metatable name attached to the cell and its
payload models the stored host value.  `tref` is a reference to a
registry-resident table (used for metatables pushed by `new_metatable`). -/
inductive LValue where
  | nil
  | boolean (b : Bool)
  | integer (i : Int)
  | number (x : Int)
  | str (t : String)
  | table (entries : List (LValue × LValue))
  | func (name : String)
  | udata (tag : String) (payload : Int)
  | tref (name : String)

/-- The Lua state: the value stack (index 1 = bottom) plus the metatable
registry (name, list of (field, function-name) pairs). -/
structure State where
  stack : List LValue
  registry : List (String × List (String × String))

/-- `lua_gettop`: current stack height. -/
def State.get_top (s : State) : Int := s.stack.length

/-- `lua_absindex`: negative indices count from the top. -/
def absIndex (s : State) (i : Int) : Int :=
  if i < 0 then s.get_top + i + 1 else i

/-- Read the slot at a (possibly relative) index; invalid indices read as nil. -/
def getSlot (s : State) (i : Int) : LValue :=
  let a := absIndex s i
  if 1 ≤ a ∧ a ≤ s.get_top then s.stack.getD (a - 1).toNat LValue.nil
  else LValue.nil

/-- `lua_settop n` (with `n ≥ 0`): truncate the stack to `n` slots, padding
with nils if it is shorter. -/
def setTop (s : State) (n : Int) : State :=
  let m := n.toNat
  { s with stack :=
      if m ≤ s.stack.length then s.stack.take m
      else s.stack ++ List.replicate (m - s.stack.length) LValue.nil }

/-- `lua_push*`: push one value on top. -/
def push (s : State) (v : LValue) : State :=
  { s with stack := s.stack ++ [v] }

/-- `lua_pop n`: drop `n` values from the top. -/
def pop (s : State) (n : Nat) : State :=
  { s with stack := s.stack.take (s.stack.length - n) }

/-- `state.is_nil(i)` on a value already read from the stack. -/
def is_nil (v : LValue) : Bool :=
  match v with
  | LValue.nil => true
  | _ => false

/-- The `auto_cleanup!` macro (src/lib.rs:164-171):
`let top = state.get_top(); let result = block; state.set_top(top); result`.
The enclosed operation is an explicit state transformer; a fallible
operation signals failure through its result value (the closure pattern
used by `convert_arguments!`). -/
def auto_cleanup {α : Type} (op : State → State × α) (s : State) : State × α :=
  let top := s.get_top
  let r := op s
  (setTop r.1 top, r.2)

/-- A primitive host target type for `FromLua` conversion. -/
inductive PrimTy where
  | int
  | num
  | str
  | bool
deriving DecidableEq

/-- One `convert_arguments!` selector: a concrete host type or the `_`
wildcard ("consume the slot without conversion"). -/
inductive Selector where
  | wild
  | prim (t : PrimTy)
deriving DecidableEq

/-- One component of the resulting tuple.  The Rust expansion produces the
unit value `()` for a wildcard selector, so `unit` mirrors that component. -/
inductive Converted where
  | unit
  | vInt (i : Int)
  | vNum (x : Int)
  | vStr (t : String)
  | vBool (b : Bool)
deriving DecidableEq

/-- `state.to_type::<T>(i)` for primitive `T`: the per-type `FromLua`
capability; yields nothing unless the dynamic type of the slot matches. -/
def toType (t : PrimTy) (v : LValue) : Option Converted :=
  match t, v with
  | PrimTy.int, LValue.integer i => some (Converted.vInt i)
  | PrimTy.num, LValue.number x => some (Converted.vNum x)
  | PrimTy.str, LValue.str u => some (Converted.vStr u)
  | PrimTy.bool, LValue.boolean b => some (Converted.vBool b)
  | _, _ => none

/-- The per-selector loop body of `convert_arguments!` (src/lib.rs:190-195):
`position` is incremented for every selector (wildcards included); a
wildcard contributes `()`; a typed selector reads slot `base + position`
and on conversion failure the whole call fails with `Err(position)`. -/
def collectLoop (s : State) (base : Int) : List Selector → Int → Except Int (List Converted)
  | [], _ => Except.ok []
  | sel :: rest, position =>
    match sel with
    | Selector.wild =>
      match collectLoop s base rest (position + 1) with
      | Except.ok l => Except.ok (Converted.unit :: l)
      | Except.error e => Except.error e
    | Selector.prim t =>
      match toType t (getSlot s (base + position)) with
      | some v =>
        match collectLoop s base rest (position + 1) with
        | Except.ok l => Except.ok (v :: l)
        | Except.error e => Except.error e
      | none => Except.error position

/-- The `collect` closure of `convert_arguments!` (src/lib.rs:182-196):
arity checks (underflow: `Err(top + 1)`; strict overflow: `Err(top)`)
followed by the selector loop starting at position 1. -/
def collect (strict : Bool) (sels : List Selector) (top : Int) (s : State) :
    Except Int (List Converted) :=
  let quantity : Int := sels.length
  let base := s.get_top - quantity
  if base < 0 then Except.error (top + 1)
  else if strict = true ∧ 0 < base then Except.error top
  else collectLoop s base sels 1

/-- The `convert_arguments!` macro (src/lib.rs:176-199): records `top`,
then runs the collect closure inside `auto_cleanup!`.  The selector list
generalizes the macro's variadic type arguments. -/
def convert_arguments (strict : Bool) (sels : List Selector) (s : State) :
    State × Except Int (List Converted) :=
  let top := s.get_top
  auto_cleanup (fun s1 => (s1, collect strict sels top s1)) s

/-- Value of the converted tuple component for one selector and one slot
(total description used to state success theorems). -/
def conv (sel : Selector) (v : LValue) : Converted :=
  match sel with
  | Selector.wild => Converted.unit
  | Selector.prim t => (toType t v).getD Converted.unit

/-- Whether one selector accepts one slot (wildcards accept anything). -/
def convOk (sel : Selector) (v : LValue) : Bool :=
  match sel with
  | Selector.wild => true
  | Selector.prim t => (toType t v).isSome

/-- The tuple `collectLoop` produces on an all-successful run: one
component per selector, reading slot `base + position` for each. -/
def expectedList (s : State) (base : Int) : List Selector → Int → List Converted
  | [], _ => []
  | sel :: rest, pos => conv sel (getSlot s (base + pos)) :: expectedList s base rest (pos + 1)

/-- Whether a key slot equals the integer key `i` (raw key comparison, as
used by `geti`/`raw_seti` on integer keys). -/
def isIntKey (k : LValue) (i : Int) : Bool :=
  match k with
  | LValue.integer j => j = i
  | _ => false

/-- `t[i]` for a table given by its entry list: value of the first entry
whose key is the integer `i`, or nil when absent. -/
def tableGet (entries : List (LValue × LValue)) (i : Int) : LValue :=
  match entries with
  | [] => LValue.nil
  | (k, v) :: rest => if isIntKey k i then v else tableGet rest i

/-- Remove the first entry with integer key `i` (a counting helper used to
bound how many ascending integer keys a finite entry list can satisfy). -/
def removeIntKey : List (LValue × LValue) → Int → List (LValue × LValue)
  | [], _ => []
  | (k, v) :: rest, i => if isIntKey k i then rest else (k, v) :: removeIntKey rest i

/-- Raw store `t[i] = v`: replace the first entry with key `i`, or append
a fresh entry when the key is absent. -/
def tableSet (entries : List (LValue × LValue)) (i : Int) (v : LValue) :
    List (LValue × LValue) :=
  if entries.any (fun p => isIntKey p.1 i) then
    entries.map (fun p => if isIntKey p.1 i then (p.1, v) else p)
  else entries ++ [(LValue.integer i, v)]

/-- `HashMap::insert`: replace the value of an existing key or add the pair. -/
def mapInsert (acc : List (Converted × Converted)) (k v : Converted) :
    List (Converted × Converted) :=
  if acc.any (fun p => p.1 = k) then
    acc.map (fun p => if p.1 = k then (k, v) else p)
  else acc ++ [(k, v)]

/-- The `while state.next(index)` loop of `lua_table_type`'s `from_lua`
(src/lib.rs:231-240).  The loop state has the current key on top of the
stack; `next` pops it and, while entries remain, pushes the next key and
its value (entries are enumerated in table order, modelled by the
remaining entry list).  Each iteration converts the two freshly pushed
slots with non-strict `convert_arguments!`; on success the value slot is
popped (the key stays for the next `next`), on failure both slots are
popped and the whole construction yields nothing. -/
def table_next_loop (K V : PrimTy) :
    List (LValue × LValue) → List (Converted × Converted) → State →
    State × Option (List (Converted × Converted))
  | [], acc, s => (pop s 1, some acc)
  | (k, v) :: rest, acc, s =>
    let s1 := push (push (pop s 1) k) v
    match convert_arguments false [Selector.prim K, Selector.prim V] s1 with
    | (s2, Except.ok (ck :: cv :: _)) =>
      table_next_loop K V rest (mapInsert acc ck cv) (pop s2 1)
    | (s2, Except.ok _) => (pop s2 2, none)
    | (s2, Except.error _) => (pop s2 2, none)

/-- `from_lua` generated by `lua_table_type!` (src/lib.rs:224-242): check
the slot is a table, take its absolute index, push nil as the initial
key and iterate.  `K`, `V` are the macro's key and value types. -/
def lua_table_from_lua (K V : PrimTy) (s : State) (index : Int) :
    State × Option (List (Converted × Converted)) :=
  match getSlot s index with
  | LValue.table entries => table_next_loop K V entries [] (push s LValue.nil)
  | _ => (s, none)

/-- The `for idx in 1..` loop of `lua_array_type`'s `from_lua`
(src/lib.rs:260-273): `geti` pushes `t[idx]`; a nil slot ends the
sequence (pop it and stop); otherwise the slot is converted with
non-strict `convert_arguments!`, a failure aborting the whole
construction.  The loop in the source is unbounded and stops at the
first gap; `fuel` is an upper bound on the number of iterations,
instantiated below so that it never runs out (a table with `n` entries
has a nil slot among indices `1..n+1`). -/
def array_loop (V : PrimTy) (entries : List (LValue × LValue)) :
    Nat → Int → List Converted → State → State × Option (List Converted)
  | 0, _, _, s => (s, none)
  | Nat.succ fuel, idx, acc, s =>
    let w := tableGet entries idx
    let s1 := push s w
    if is_nil w then (pop s1 1, some acc)
    else
      match convert_arguments false [Selector.prim V] s1 with
      | (s2, Except.ok (cv :: _)) =>
        array_loop V entries fuel (idx + 1) (acc ++ [cv]) (pop s2 1)
      | (s2, Except.ok _) => (pop s2 1, none)
      | (s2, Except.error _) => (pop s2 1, none)

/-- `from_lua` generated by `lua_array_type!` (src/lib.rs:254-275). -/
def lua_array_from_lua (V : PrimTy) (s : State) (index : Int) :
    State × Option (List Converted) :=
  match getSlot s index with
  | LValue.table entries =>
    array_loop V entries (entries.length + 1) 1 [] s
  | _ => (s, none)

/-- `ToLua` of a primitive host value (`state.push(item)`). -/
def pushVal (c : Converted) : LValue :=
  match c with
  | Converted.unit => LValue.nil
  | Converted.vInt i => LValue.integer i
  | Converted.vNum x => LValue.number x
  | Converted.vStr t => LValue.str t
  | Converted.vBool b => LValue.boolean b

/-- Overwrite the stack slot at absolute index `a` (1-based). -/
def updateSlot (s : State) (a : Int) (v : LValue) : State :=
  { s with stack := s.stack.set (a.toNat - 1) v }

/-- `lua_rawseti(i, n)`: pop the value on top and store it at integer key
`n` of the table at index `i` (index computed before the pop). -/
def raw_seti (s : State) (i : Int) (n : Int) : State :=
  let a := absIndex s i
  let v := getSlot s (-1)
  let s1 := pop s 1
  match getSlot s a with
  | LValue.table es => updateSlot s1 a (LValue.table (tableSet es n v))
  | _ => s1

/-- The element loop of `lua_array_type`'s `to_lua` (src/lib.rs:282-287):
`idx` starts at 0 and is incremented before each store, so keys run
1, 2, ... densely. -/
def to_lua_loop : List Converted → Int → State → State
  | [], _, s => s
  | item :: rest, idx, s =>
    let idx1 := idx + 1
    let s1 := push s (pushVal item)
    let s2 := raw_seti s1 (-2) idx1
    to_lua_loop rest idx1 s2

/-- `to_lua` generated by `lua_array_type!` (src/lib.rs:278-289):
`new_table` then write every element at the next integer key. -/
def lua_array_to_lua (vs : List Converted) (s : State) : State :=
  to_lua_loop vs 0 (push s (LValue.table []))

/-- The dense entry list `to_lua` builds: ascending integer keys starting
at `n`, one per element (a closed-form description of the loop's output). -/
def denseFrom : Nat → List Converted → List (LValue × LValue)
  | _, [] => []
  | n, v :: rest => (LValue.integer (n : Int), pushVal v) :: denseFrom (n + 1) rest

/-- Closed-form description of what the ascending element scan collects:
the converted values of the slots at integer keys `idx, idx+1, ...` for
`steps` consecutive keys. -/
def gapRun (V : PrimTy) (entries : List (LValue × LValue)) : Nat → Int → List Converted
  | 0, _ => []
  | Nat.succ st, idx =>
    (toType V (tableGet entries idx)).getD Converted.unit :: gapRun V entries st (idx + 1)

/-- `meta_name()` generated by `lua_userdata!` (src/lib.rs:298-300):
`concat!(stringify!(T), ".Rust")`. -/
def meta_name (n : String) : String := n ++ ".Rust"

/-- `to_lua` generated by `lua_userdata!` (src/lib.rs:324-329): allocate a
userdata cell holding a clone of the host value and set its metatable to
the type's registered tag.  The host value is modelled by its payload. -/
def ud_to_lua (n : String) (payload : Int) (s : State) : State :=
  push s (LValue.udata (meta_name n) payload)

/-- `from_lua` generated by `lua_userdata!` (src/lib.rs:315-322):
`test_userdata_typed` checks the slot is a userdata cell whose metatable
tag equals the requested type's `meta_name` and clones the content;
any other slot, or a tag of a different type, yields nothing. -/
def ud_from_lua (n : String) (s : State) (index : Int) : Option Int :=
  match getSlot s index with
  | LValue.udata tag payload => if tag = meta_name n then some payload else none
  | _ => none

/-- Look a metatable up in the registry by name. -/
def lookupMeta (reg : List (String × List (String × String))) (n : String) :
    Option (List (String × String)) :=
  (reg.find? (fun p => p.1 == n)).map (fun p => p.2)

/-- `luaL_newmetatable`: if the name is already registered, push the
existing metatable and report `false`; otherwise create a fresh empty
metatable under that name, push it, and report `true`. -/
def new_metatable (s : State) (n : String) : State × Bool :=
  match lookupMeta s.registry n with
  | some _ => ({ s with stack := s.stack ++ [LValue.tref n] }, false)
  | none =>
    ({ s with stack := s.stack ++ [LValue.tref n],
              registry := s.registry ++ [(n, [])] }, true)

/-- Insert a (field, function) pair into a metatable's field list,
replacing an existing field of the same name. -/
def fieldInsert (flds : List (String × String)) (k f : String) :
    List (String × String) :=
  if flds.any (fun p => p.1 == k) then
    flds.map (fun p => if p.1 == k then (k, f) else p)
  else flds ++ [(k, f)]

/-- Update the registry entry of metatable `n` with a new field. -/
def registrySetField (reg : List (String × List (String × String)))
    (n k f : String) : List (String × List (String × String)) :=
  reg.map (fun p => if p.1 == n then (p.1, fieldInsert p.2 k f) else p)

/-- `lua_setfield(i, k)`: pop the value on top and store it under string
key `k` in the table at index `i` (my model covers the registry-table
case used by `attach`, where the target slot is a metatable reference). -/
def set_field (s : State) (i : Int) (k : String) : State :=
  let a := absIndex s i
  let v := getSlot s (-1)
  let s1 := pop s 1
  match getSlot s a, v with
  | LValue.tref n, LValue.func f => { s1 with registry := registrySetField s1.registry n k f }
  | _, _ => s1

/-- `attach` generated by `lua_userdata!` (src/lib.rs:302-312): create or
fetch the metatable named `meta_name n`, install every listed
(field, method) pair into it via `push_fn`/`set_field(-2, _)`, pop the
metatable, and only then check `created`: a pre-existing metatable is a
fatal error.  `Except.error` models the `panic!` (an abort, not a
recoverable return value); `Except.ok ()` models normal return. -/
def attach (n : String) (methods : List (String × String)) (s : State) :
    State × Except String Unit :=
  let name := meta_name n
  let r := new_metatable s name
  let s2 := methods.foldl (fun st m => set_field (push st (LValue.func m.2)) (-2) m.1) r.1
  let s3 := pop s2 1
  if r.2 = false then (s3, Except.error ("Metatable " ++ name ++ " already exists."))
  else (s3, Except.ok ())

/-! ### Basic stack lemmas -/

theorem get_top_nonneg (s : State) : 0 ≤ s.get_top := by
  simp [State.get_top]

theorem setTop_get_top (s : State) (n : Int) (h : 0 ≤ n) : (setTop s n).get_top = n := by
  unfold setTop State.get_top
  by_cases hle : n.toNat ≤ s.stack.length
  · simp [hle]
    omega
  · simp [hle]
    omega

theorem setTop_self (s : State) : setTop s s.get_top = s := by
  unfold setTop State.get_top
  simp

theorem convert_arguments_eq (b : Bool) (sels : List Selector) (s : State) :
    convert_arguments b sels s = (s, collect b sels s.get_top s) := by
  unfold convert_arguments auto_cleanup
  simp [setTop_self]

theorem getSlot_nat (s : State) (n : Nat) :
    getSlot s ((n : Int) + 1) = s.stack.getD n LValue.nil := by
  have hneg : ¬ ((n : Int) + 1 < 0) := by omega
  unfold getSlot absIndex State.get_top
  rw [if_neg hneg]
  by_cases hlt : n < s.stack.length
  · have h2 : 1 ≤ (n : Int) + 1 ∧ (n : Int) + 1 ≤ (s.stack.length : Int) := by
      constructor <;> omega
    rw [if_pos h2]
    congr 1
    omega
  · have h2 : ¬ (1 ≤ (n : Int) + 1 ∧ (n : Int) + 1 ≤ (s.stack.length : Int)) := by
      push_neg
      intro _
      omega
    rw [if_neg h2, List.getD_eq_default _ _ (by omega)]

/-! ### The selector loop: success and first-failure lemmas -/

theorem collectLoop_ok (s : State) (base : Int) :
    ∀ (sels : List Selector) (pos : Int),
    (∀ k : Nat, k < sels.length →
      convOk (sels.getD k Selector.wild) (getSlot s (base + pos + (k : Int))) = true) →
    collectLoop s base sels pos = Except.ok (expectedList s base sels pos) := by
  intro sels
  induction sels with
  | nil => intro pos _; rfl
  | cons sel rest ih =>
    intro pos h
    have hrest : ∀ k : Nat, k < rest.length →
        convOk (rest.getD k Selector.wild) (getSlot s (base + (pos + 1) + (k : Int))) = true := by
      intro k hk
      have h2 := h (k + 1) (by simpa using Nat.succ_lt_succ hk)
      have harg : base + pos + ((k + 1 : Nat) : Int) = base + (pos + 1) + (k : Int) := by
        push_cast
        ring
      rw [harg] at h2
      simpa using h2
    cases sel with
    | wild =>
      show (match collectLoop s base rest (pos + 1) with
        | Except.ok l => Except.ok (Converted.unit :: l)
        | Except.error e => Except.error e) = _
      rw [ih (pos + 1) hrest]
      rfl
    | prim t =>
      have h0 := h 0 (by simp)
      have harg : base + pos + ((0 : Nat) : Int) = base + pos := by push_cast; ring
      rw [harg] at h0
      simp only [List.getD_cons_zero, convOk] at h0
      obtain ⟨v, hv⟩ := Option.isSome_iff_exists.mp h0
      show (match toType t (getSlot s (base + pos)) with
        | some v =>
          match collectLoop s base rest (pos + 1) with
          | Except.ok l => Except.ok (v :: l)
          | Except.error e => Except.error e
        | none => Except.error pos) = _
      rw [hv, ih (pos + 1) hrest]
      show Except.ok (v :: expectedList s base rest (pos + 1)) = _
      have : conv (Selector.prim t) (getSlot s (base + pos)) = v := by
        simp [conv, hv]
      simp [expectedList, this]

theorem collectLoop_fail (s : State) (base : Int) :
    ∀ (sels : List Selector) (pos : Int) (j : Nat) (t : PrimTy),
    sels.getD j Selector.wild = Selector.prim t →
    toType t (getSlot s (base + pos + (j : Int))) = none →
    (∀ k : Nat, k < j →
      convOk (sels.getD k Selector.wild) (getSlot s (base + pos + (k : Int))) = true) →
    collectLoop s base sels pos = Except.error (pos + (j : Int)) := by
  intro sels
  induction sels with
  | nil =>
    intro pos j t hsel _ _
    simp [List.getD] at hsel
  | cons sel rest ih =>
    intro pos j t hsel hfail hbefore
    cases j with
    | zero =>
      simp only [List.getD_cons_zero] at hsel
      subst hsel
      have harg : base + pos + ((0 : Nat) : Int) = base + pos := by push_cast; ring
      rw [harg] at hfail
      show (match toType t (getSlot s (base + pos)) with
        | some v =>
          match collectLoop s base rest (pos + 1) with
          | Except.ok l => Except.ok (v :: l)
          | Except.error e => Except.error e
        | none => Except.error pos) = _
      rw [hfail]
      norm_num
    | succ j' =>
      have hrest : collectLoop s base rest (pos + 1) = Except.error ((pos + 1) + (j' : Int)) := by
        apply ih (pos + 1) j' t
        · simpa using hsel
        · have harg : base + pos + ((j' + 1 : Nat) : Int) = base + (pos + 1) + (j' : Int) := by
            push_cast
            ring
          rw [harg] at hfail
          exact hfail
        · intro k hk
          have h2 := hbefore (k + 1) (by omega)
          have harg : base + pos + ((k + 1 : Nat) : Int) = base + (pos + 1) + (k : Int) := by
            push_cast
            ring
          rw [harg] at h2
          simpa using h2
      have hres : (pos + 1) + (j' : Int) = pos + ((j' + 1 : Nat) : Int) := by
        push_cast
        ring
      have h0 := hbefore 0 (by omega)
      have harg0 : base + pos + ((0 : Nat) : Int) = base + pos := by push_cast; ring
      rw [harg0] at h0
      cases sel with
      | wild =>
        show (match collectLoop s base rest (pos + 1) with
          | Except.ok l => Except.ok (Converted.unit :: l)
          | Except.error e => Except.error e) = _
        rw [hrest, hres]
      | prim t0 =>
        simp only [List.getD_cons_zero, convOk] at h0
        obtain ⟨v, hv⟩ := Option.isSome_iff_exists.mp h0
        show (match toType t0 (getSlot s (base + pos)) with
          | some v =>
            match collectLoop s base rest (pos + 1) with
            | Except.ok l => Except.ok (v :: l)
            | Except.error e => Except.error e
          | none => Except.error pos) = _
        rw [hv, hrest, hres]

/-! ### Claim theorems: scope guard and arity errors -/

/-- C2: the stack-scope guard `auto_cleanup!` records the stack height at
entry and, after the enclosed operation concludes (including when its
result is a signalled failure value travelling out of the scope),
restores the stack height exactly while yielding the operation's result
unchanged; nested two levels deep, an inner scope whose operation fails
leaves the stack at the outer scope's recorded entry height once the
outer scope concludes, and the failure is rethrown unchanged. -/
theorem auto_cleanup_restores_height_and_result :
    (∀ (α : Type) (op : State → State × α) (s : State),
      ((auto_cleanup op s).1).get_top = s.get_top ∧
      (auto_cleanup op s).2 = (op s).2) ∧
    (∀ (f g : State → State) (e : Int) (s : State),
      ((auto_cleanup (fun t =>
          auto_cleanup (fun u => (f u, (Except.error e : Except Int Unit))) (g t)) s).1).get_top
        = s.get_top ∧
      (auto_cleanup (fun t =>
          auto_cleanup (fun u => (f u, (Except.error e : Except Int Unit))) (g t)) s).2
        = Except.error e) := by
  constructor
  · intro α op s
    exact ⟨setTop_get_top _ _ (get_top_nonneg s), rfl⟩
  · intro f g e s
    exact ⟨setTop_get_top _ _ (get_top_nonneg s), rfl⟩

/-- C4: `convert_arguments!` fails with position (stack height)+1 when the
stack holds fewer values than there are selectors, and, in strict mode,
with position equal to the stack height when the stack holds more values
than there are selectors. -/
theorem convert_arguments_arity_errors (strict : Bool) (sels : List Selector) (s : State) :
    (s.get_top < (sels.length : Int) →
      (convert_arguments strict sels s).2 = Except.error (s.get_top + 1)) ∧
    (strict = true → (sels.length : Int) < s.get_top →
      (convert_arguments strict sels s).2 = Except.error s.get_top) := by
  rw [convert_arguments_eq]
  simp only [collect]
  constructor
  · intro h
    rw [if_pos (by omega)]
  · intro hs h
    rw [if_neg (by omega), if_pos ⟨hs, by omega⟩]

/-- Witness for C4: two selectors against an empty stack fail with
position 1 = 0 + 1; one selector against two stacked values in strict
mode fails with position 2 = the stack height. -/
theorem convert_arguments_arity_errors_witness :
    (convert_arguments true [Selector.prim PrimTy.int, Selector.prim PrimTy.int]
      (State.mk [] [])).2 = Except.error 1 ∧
    (convert_arguments true [Selector.prim PrimTy.int]
      (State.mk [LValue.integer 1, LValue.integer 2] [])).2 = Except.error 2 := by
  constructor
  · have h := (convert_arguments_arity_errors true
      [Selector.prim PrimTy.int, Selector.prim PrimTy.int] (State.mk [] [])).1 (by decide)
    simpa using h
  · have h := (convert_arguments_arity_errors true
      [Selector.prim PrimTy.int] (State.mk [LValue.integer 1, LValue.integer 2] [])).2
      rfl (by decide)
    simpa using h

/-- C9 counterexample: the zero-selector instance of the conversion
protocol (the macro itself syntactically requires at least one selector;
the empty list is the direct generalization of its expansion) does not
always succeed: in strict mode with one value on the stack it fails with
position 1 (= the stack height), not with an empty tuple. -/
theorem convert_arguments_no_selectors_counterexample :
    (convert_arguments true [] (State.mk [LValue.integer 7] [])).2 = Except.error 1 ∧
    (Except.error 1 : Except Int (List Converted)) ≠ Except.ok [] :=
  ⟨rfl, fun h => nomatch h⟩

/-- C9 (amended): a zero-selector conversion leaves the state unchanged
(so the stack is exactly as tall after the call as before), succeeds with
the empty tuple when the mode is permissive or the stack is empty, and in
strict mode with a nonempty stack fails with position = stack height. -/
theorem convert_arguments_no_selectors (strict : Bool) (s : State) :
    (convert_arguments strict [] s).1 = s ∧
    (convert_arguments strict [] s).2 =
      (if strict = true ∧ 0 < s.get_top then Except.error s.get_top else Except.ok []) := by
  rw [convert_arguments_eq]
  refine ⟨rfl, ?_⟩
  show collect strict [] s.get_top s = _
  simp only [collect, List.length_nil, Nat.cast_zero, sub_zero]
  have h0 := get_top_nonneg s
  rw [if_neg (by omega)]
  by_cases hc : strict = true ∧ 0 < s.get_top
  · rw [if_pos hc, if_pos hc]
  · rw [if_neg hc, if_neg hc]
    rfl

theorem expectedList_eq_zipWith (s : State) :
    ∀ (sels : List Selector) (n : Nat),
    n + sels.length ≤ s.stack.length →
    expectedList s 0 sels ((n : Int) + 1) = List.zipWith conv sels (s.stack.drop n) := by
  intro sels
  induction sels with
  | nil => intro n _; simp [expectedList]
  | cons sel rest ih =>
    intro n hn
    have hlt : n < s.stack.length := by simp at hn; omega
    have hdrop : s.stack.drop n = s.stack[n] :: s.stack.drop (n + 1) :=
      List.drop_eq_getElem_cons hlt
    have hslot : getSlot s (0 + ((n : Int) + 1)) = s.stack[n] := by
      rw [zero_add, getSlot_nat, List.getD_eq_getElem _ _ hlt]
    have hstep : ((n : Int) + 1) + 1 = ((n + 1 : Nat) : Int) + 1 := by push_cast; ring
    show conv sel (getSlot s (0 + ((n : Int) + 1))) :: expectedList s 0 rest (((n : Int) + 1) + 1)
        = _
    rw [hslot, hdrop, hstep, ih (n + 1) (by simp at hn ⊢; omega)]
    rfl

/-- C1 counterexample: a single wildcard selector against a one-value
stack succeeds with a one-component tuple holding the unit placeholder
(the Rust expansion produces `()` for `_`), not with the empty tuple the
claim's "wildcard slots are not part of the tuple type" would give. -/
theorem convert_arguments_wildcard_slot_counterexample :
    (convert_arguments true [Selector.wild] (State.mk [LValue.integer 5] [])).2
      = Except.ok [Converted.unit] ∧
    Except.ok [Converted.unit] ≠ (Except.ok [] : Except Int (List Converted)) :=
  ⟨rfl, fun h => nomatch h⟩

/-- C1 (amended): with a stack holding exactly one value per selector,
each convertible to its selector's type, strict `convert_arguments!`
returns Ok with the tuple of converted values in selector order, the
wildcard positions carrying the unit placeholder `()` (one tuple
component per selector), and the state — hence the stack height — is
unchanged by the call. -/
theorem convert_arguments_strict_success (sels : List Selector) (s : State)
    (hlen : s.stack.length = sels.length)
    (hok : ∀ k : Nat, k < sels.length →
      convOk (sels.getD k Selector.wild) (s.stack.getD k LValue.nil) = true) :
    (convert_arguments true sels s).1 = s ∧
    (convert_arguments true sels s).2 = Except.ok (List.zipWith conv sels s.stack) := by
  rw [convert_arguments_eq]
  refine ⟨rfl, ?_⟩
  show collect true sels s.get_top s = _
  simp only [collect]
  have hb : s.get_top - (sels.length : Int) = 0 := by
    simp [State.get_top, hlen]
  rw [hb]
  rw [if_neg (by omega), if_neg (by omega)]
  have hloop := collectLoop_ok s 0 sels 1 (by
    intro k hk
    have harg : (0 : Int) + 1 + (k : Int) = (k : Int) + 1 := by ring
    rw [harg, getSlot_nat]
    exact hok k hk)
  rw [hloop]
  have h1 : (1 : Int) = ((0 : Nat) : Int) + 1 := by norm_num
  rw [h1, expectedList_eq_zipWith s sels 0 (by omega)]
  simp

/-- Witness for C1's amended theorem at a concrete input: selectors
(int, wildcard, string) against the stack (5, true, "x") yield the
three-component tuple (5, (), "x") and leave the state unchanged. -/
theorem convert_arguments_strict_success_witness :
    (convert_arguments true [Selector.prim PrimTy.int, Selector.wild, Selector.prim PrimTy.str]
      (State.mk [LValue.integer 5, LValue.boolean true, LValue.str "x"] [])).1
      = State.mk [LValue.integer 5, LValue.boolean true, LValue.str "x"] [] ∧
    (convert_arguments true [Selector.prim PrimTy.int, Selector.wild, Selector.prim PrimTy.str]
      (State.mk [LValue.integer 5, LValue.boolean true, LValue.str "x"] [])).2
      = Except.ok [Converted.vInt 5, Converted.unit, Converted.vStr "x"] := by
  have h := convert_arguments_strict_success
    [Selector.prim PrimTy.int, Selector.wild, Selector.prim PrimTy.str]
    (State.mk [LValue.integer 5, LValue.boolean true, LValue.str "x"] [])
    (by decide) (by decide)
  exact ⟨h.1, h.2⟩

/-! ### Evaluating permissive conversions of the container loops -/

theorem getSlot_push_one (s0 : State) (k v : LValue) :
    getSlot (push (push s0 k) v) ((s0.stack.length : Int) + 1) = k := by
  rw [getSlot_nat]
  show ((s0.stack ++ [k]) ++ [v]).getD s0.stack.length LValue.nil = k
  rw [List.getD_append _ _ _ _ (by simp), List.getD_append_right _ _ _ _ (by simp)]
  simp

theorem getSlot_push_two (s0 : State) (k v : LValue) :
    getSlot (push (push s0 k) v) ((s0.stack.length : Int) + 2) = v := by
  have h : (s0.stack.length : Int) + 2 = ((s0.stack.length + 1 : Nat) : Int) + 1 := by
    push_cast
    ring
  rw [h, getSlot_nat]
  show ((s0.stack ++ [k]) ++ [v]).getD (s0.stack.length + 1) LValue.nil = v
  rw [List.getD_append_right _ _ _ _ (by simp)]
  simp

theorem getSlot_push_last (s0 : State) (w : LValue) :
    getSlot (push s0 w) ((s0.stack.length : Int) + 1) = w := by
  rw [getSlot_nat]
  show (s0.stack ++ [w]).getD s0.stack.length LValue.nil = w
  rw [List.getD_append_right _ _ _ _ (by simp)]
  simp

theorem convert_arguments_permissive_eval (sels : List Selector) (s : State)
    (h : (sels.length : Int) ≤ s.get_top) :
    convert_arguments false sels s
      = (s, collectLoop s (s.get_top - (sels.length : Int)) sels 1) := by
  rw [convert_arguments_eq]
  congr 1
  simp only [collect]
  rw [if_neg (by omega)]
  rw [if_neg (by rintro ⟨h1, _⟩; exact nomatch h1)]

theorem collectLoop_pair (s : State) (base : Int) (K V : PrimTy) :
    collectLoop s base [Selector.prim K, Selector.prim V] 1
      = (match toType K (getSlot s (base + 1)), toType V (getSlot s (base + 2)) with
        | none, _ => Except.error 1
        | some _, none => Except.error 2
        | some ck, some cv => Except.ok [ck, cv]) := by
  cases hK : toType K (getSlot s (base + 1)) <;>
    cases hV : toType V (getSlot s (base + 2)) <;>
    simp [collectLoop, hK, hV]

theorem collectLoop_single (s : State) (base : Int) (V : PrimTy) :
    collectLoop s base [Selector.prim V] 1
      = (match toType V (getSlot s (base + 1)) with
        | none => Except.error 1
        | some cv => Except.ok [cv]) := by
  cases hV : toType V (getSlot s (base + 1)) <;> simp [collectLoop, hV]

/-- Full evaluation of the non-strict two-selector conversion performed by
the table iteration loop: the stack below the freshly pushed key and
value is untouched, and the outcome depends only on the two conversions. -/
theorem convert_pair (K V : PrimTy) (s0 : State) (k v : LValue) :
    convert_arguments false [Selector.prim K, Selector.prim V] (push (push s0 k) v)
      = (push (push s0 k) v,
        match toType K k, toType V v with
        | none, _ => Except.error 1
        | some _, none => Except.error 2
        | some ck, some cv => Except.ok [ck, cv]) := by
  have htop : (push (push s0 k) v).get_top = (s0.stack.length : Int) + 2 := by
    simp [State.get_top, push]
  rw [convert_arguments_permissive_eval _ _ (by rw [htop]; simp)]
  congr 1
  have hbase : (push (push s0 k) v).get_top
      - (([Selector.prim K, Selector.prim V] : List Selector).length : Int)
      = (s0.stack.length : Int) := by
    rw [htop]
    simp
  rw [hbase, collectLoop_pair, getSlot_push_one, getSlot_push_two]

/-- Full evaluation of the non-strict one-selector conversion performed by
the array element loop. -/
theorem convert_single (V : PrimTy) (s0 : State) (w : LValue) :
    convert_arguments false [Selector.prim V] (push s0 w)
      = (push s0 w,
        match toType V w with
        | none => Except.error 1
        | some cv => Except.ok [cv]) := by
  have htop : (push s0 w).get_top = (s0.stack.length : Int) + 1 := by
    simp [State.get_top, push]
  rw [convert_arguments_permissive_eval _ _ (by rw [htop]; simp)]
  congr 1
  have hbase : (push s0 w).get_top - (([Selector.prim V] : List Selector).length : Int)
      = (s0.stack.length : Int) := by
    rw [htop]
    simp
  rw [hbase, collectLoop_single, getSlot_push_last]

/-! ### Container loop lemmas -/

theorem pop_push (s : State) (w : LValue) : pop (push s w) 1 = s := by
  unfold pop push
  cases s with
  | mk stack reg =>
    simp only
    congr 1
    simp only [List.length_append, List.length_cons, List.length_nil]
    have h : stack.length + 1 - 1 = stack.length := by omega
    rw [h]
    exact List.take_left stack [w]

theorem isIntKey_ne (k : LValue) (i j : Int) (hij : i ≠ j)
    (h : isIntKey k j = true) : isIntKey k i = false := by
  cases k <;> simp [isIntKey] at h ⊢
  omega

theorem tableGet_removeIntKey (i j : Int) (h : i ≠ j) :
    ∀ entries, tableGet (removeIntKey entries j) i = tableGet entries i := by
  intro entries
  induction entries with
  | nil => rfl
  | cons kv rest ih =>
    obtain ⟨k, v⟩ := kv
    by_cases hk : isIntKey k j = true
    · rw [show removeIntKey ((k, v) :: rest) j = rest by simp [removeIntKey, hk]]
      rw [show tableGet ((k, v) :: rest) i = tableGet rest i by
        simp [tableGet, isIntKey_ne k i j h hk]]
    · rw [show removeIntKey ((k, v) :: rest) j = (k, v) :: removeIntKey rest j by
        simp [removeIntKey, hk]]
      show (if isIntKey k i then v else tableGet (removeIntKey rest j) i) = _
      rw [ih]
      rfl

theorem removeIntKey_length (j : Int) :
    ∀ entries : List (LValue × LValue), is_nil (tableGet entries j) = false →
    (removeIntKey entries j).length + 1 = entries.length := by
  intro entries
  induction entries with
  | nil => intro h; simp [tableGet, is_nil] at h
  | cons kv rest ih =>
    obtain ⟨k, v⟩ := kv
    intro h
    by_cases hk : isIntKey k j = true
    · simp [removeIntKey, hk]
    · have h2 : is_nil (tableGet rest j) = false := by
        simpa [tableGet, hk] using h
      have := ih h2
      simp [removeIntKey, hk]
      omega

/-- A finite entry list answering non-nil at every integer key `1..m`
must hold at least `m` entries. -/
theorem int_keys_pigeonhole :
    ∀ (m : Nat) (entries : List (LValue × LValue)),
    (∀ q : Nat, 1 ≤ q → q ≤ m → is_nil (tableGet entries (q : Int)) = false) →
    m ≤ entries.length := by
  intro m
  induction m with
  | zero => intro entries _; omega
  | succ m' ih =>
    intro entries h
    have hm := h (m' + 1) (by omega) (Nat.le_refl _)
    have hlen := removeIntKey_length ((m' + 1 : Nat) : Int) entries hm
    have hrest : ∀ q : Nat, 1 ≤ q → q ≤ m' →
        is_nil (tableGet (removeIntKey entries ((m' + 1 : Nat) : Int)) (q : Int)) = false := by
      intro q h1 h2
      rw [tableGet_removeIntKey _ _ (by omega)]
      exact h q h1 (by omega)
    have := ih (removeIntKey entries ((m' + 1 : Nat) : Int)) hrest
    omega

/-- The map-construction loop yields nothing whenever some remaining entry
has a key or a value that fails conversion. -/
theorem table_next_loop_none (K V : PrimTy) :
    ∀ (entries : List (LValue × LValue)) (acc : List (Converted × Converted)) (s : State),
    (∃ kv ∈ entries, toType K kv.1 = none ∨ toType V kv.2 = none) →
    (table_next_loop K V entries acc s).2 = none := by
  intro entries
  induction entries with
  | nil =>
    intro acc s h
    simp at h
  | cons kv rest ih =>
    intro acc s h
    obtain ⟨k, v⟩ := kv
    simp only [table_next_loop]
    rw [convert_pair]
    cases hK : toType K k with
    | none => rfl
    | some ck =>
      cases hV : toType V v with
      | none => rfl
      | some cv =>
        show (table_next_loop K V rest (mapInsert acc ck cv) (pop (push (push (pop s 1) k) v) 1)).2
          = none
        apply ih
        rcases h with ⟨kv', hmem, hbad⟩
        rcases List.mem_cons.mp hmem with heq | hmem'
        · subst heq
          simp only at hbad
          rcases hbad with hb | hb
          · rw [hK] at hb
            exact nomatch hb
          · rw [hV] at hb
            exact nomatch hb
        · exact ⟨kv', hmem', hbad⟩

/-- The array-construction loop yields nothing when, walking up from
`idx`, every slot before step `steps` is present and convertible but the
slot at step `steps` is present and fails conversion. -/
theorem array_loop_reach_fail (V : PrimTy) (entries : List (LValue × LValue)) :
    ∀ (steps fuel : Nat) (idx : Int) (acc : List Converted) (s : State),
    steps < fuel →
    (∀ q : Nat, q < steps → is_nil (tableGet entries (idx + (q : Int))) = false ∧
      (toType V (tableGet entries (idx + (q : Int)))).isSome = true) →
    is_nil (tableGet entries (idx + (steps : Int))) = false →
    toType V (tableGet entries (idx + (steps : Int))) = none →
    (array_loop V entries fuel idx acc s).2 = none := by
  intro steps
  induction steps with
  | zero =>
    intro fuel idx acc s hfuel _ hnil hfail
    cases fuel with
    | zero => omega
    | succ f =>
      have h0 : idx + ((0 : Nat) : Int) = idx := by push_cast; ring
      rw [h0] at hnil hfail
      simp only [array_loop]
      rw [if_neg (by rw [hnil]; exact fun h => nomatch h)]
      rw [convert_single, hfail]
  | succ st ih =>
    intro fuel idx acc s hfuel hq hnil hfail
    cases fuel with
    | zero => omega
    | succ f =>
      have h0 := hq 0 (by omega)
      have harg : idx + ((0 : Nat) : Int) = idx := by push_cast; ring
      rw [harg] at h0
      obtain ⟨cv, hcv⟩ := Option.isSome_iff_exists.mp h0.2
      simp only [array_loop]
      rw [if_neg (by rw [h0.1]; exact fun h => nomatch h)]
      rw [convert_single, hcv]
      show (array_loop V entries f (idx + 1) (acc ++ [cv]) (pop (push s _) 1)).2 = none
      rw [pop_push]
      apply ih f (idx + 1) (acc ++ [cv]) s (by omega)
      · intro q hq2
        have h2 := hq (q + 1) (by omega)
        have harg2 : idx + ((q + 1 : Nat) : Int) = idx + 1 + (q : Int) := by push_cast; ring
        rw [harg2] at h2
        exact h2
      · have harg2 : idx + ((st + 1 : Nat) : Int) = idx + 1 + (st : Int) := by push_cast; ring
        rw [harg2] at hnil
        exact hnil
      · have harg2 : idx + ((st + 1 : Nat) : Int) = idx + 1 + (st : Int) := by push_cast; ring
        rw [harg2] at hfail
        exact hfail

theorem getSlot_push_last_neg (s0 : State) (w : LValue) :
    getSlot (push s0 w) (-1) = w := by
  unfold getSlot absIndex
  have htop : (push s0 w).get_top = (s0.stack.length : Int) + 1 := by
    simp [State.get_top, push]
  rw [htop, if_pos (by norm_num)]
  have ha : (s0.stack.length : Int) + 1 + (-1) + 1 = (s0.stack.length : Int) + 1 := by ring
  rw [ha, if_pos (by constructor <;> omega)]
  have hn : (((s0.stack.length : Int) + 1 - 1)).toNat = s0.stack.length := by omega
  rw [hn]
  show (s0.stack ++ [w]).getD s0.stack.length LValue.nil = w
  rw [List.getD_append_right _ _ _ _ (by simp)]
  simp

theorem raw_seti_push (s0 : State) (es : List (LValue × LValue)) (w : LValue) (n : Int) :
    raw_seti (push (push s0 (LValue.table es)) w) (-2) n
      = push s0 (LValue.table (tableSet es n w)) := by
  unfold raw_seti
  have habs : absIndex (push (push s0 (LValue.table es)) w) (-2)
      = (s0.stack.length : Int) + 1 := by
    unfold absIndex
    rw [if_pos (by norm_num)]
    have : (push (push s0 (LValue.table es)) w).get_top = (s0.stack.length : Int) + 2 := by
      simp [State.get_top, push]
    rw [this]
    ring
  simp only
  rw [habs, getSlot_push_last_neg, getSlot_push_one, pop_push]
  show updateSlot (push s0 (LValue.table es)) ((s0.stack.length : Int) + 1)
      (LValue.table (tableSet es n w)) = _
  unfold updateSlot push
  cases s0 with
  | mk stack reg =>
    simp only
    congr 1
    have hn : (((stack.length : Int) + 1)).toNat - 1 = stack.length := by omega
    rw [hn]
    simp [List.set_append]

theorem to_lua_loop_dense (s0 : State) :
    ∀ (vs : List Converted) (idx : Nat) (es : List (LValue × LValue)),
    (∀ p ∈ es, ∀ m : Int, (idx : Int) < m → isIntKey p.1 m = false) →
    to_lua_loop vs (idx : Int) (push s0 (LValue.table es)) =
      push s0 (LValue.table (es ++ denseFrom (idx + 1) vs)) := by
  intro vs
  induction vs with
  | nil =>
    intro idx es _
    simp [to_lua_loop, denseFrom]
  | cons item rest ih =>
    intro idx es h
    simp only [to_lua_loop]
    rw [raw_seti_push]
    have hset : tableSet es ((idx : Int) + 1) (pushVal item)
        = es ++ [(LValue.integer ((idx : Int) + 1), pushVal item)] := by
      unfold tableSet
      rw [if_neg (by
        intro hcon
        rw [List.any_eq_true] at hcon
        obtain ⟨p, hmem, hkey⟩ := hcon
        have := h p hmem ((idx : Int) + 1) (by omega)
        rw [this] at hkey
        exact nomatch hkey)]
    rw [hset]
    have hcast : (idx : Int) + 1 = ((idx + 1 : Nat) : Int) := by push_cast; ring
    rw [hcast]
    rw [ih (idx + 1) (es ++ [(LValue.integer ((idx + 1 : Nat) : Int), pushVal item)]) (by
      intro p hp m hm
      rcases List.mem_append.mp hp with hin | hin
      · exact h p hin m (by push_cast at hm ⊢; omega)
      · have hpe : p = (LValue.integer ((idx + 1 : Nat) : Int), pushVal item) := by
          simpa using hin
        subst hpe
        show isIntKey (LValue.integer ((idx + 1 : Nat) : Int)) m = false
        simp only [isIntKey, decide_eq_false_iff_not]
        omega)]
    rw [List.append_assoc]
    show push s0 (LValue.table (es ++ ([_] ++ denseFrom (idx + 1 + 1) rest))) = _
    have : ([(LValue.integer ((idx + 1 : Nat) : Int), pushVal item)]
        ++ denseFrom (idx + 1 + 1) rest) = denseFrom (idx + 1) (item :: rest) := by
      simp [denseFrom]
    rw [this]

theorem tableGet_denseFrom :
    ∀ (vs : List Converted) (n : Nat) (j : Int),
    tableGet (denseFrom n vs) j =
      (if (n : Int) ≤ j ∧ j < (n : Int) + vs.length then
        pushVal (vs.getD (j - (n : Int)).toNat Converted.unit)
      else LValue.nil) := by
  intro vs
  induction vs with
  | nil =>
    intro n j
    rw [if_neg (by rintro ⟨h1, h2⟩; simp at h2; omega)]
    rfl
  | cons v rest ih =>
    intro n j
    show (if isIntKey (LValue.integer (n : Int)) j then pushVal v
      else tableGet (denseFrom (n + 1) rest) j) = _
    by_cases hj : (n : Int) = j
    · rw [if_pos (by simp [isIntKey, hj])]
      rw [if_pos (by refine ⟨by omega, ?_⟩; simp; omega)]
      have : (j - (n : Int)).toNat = 0 := by omega
      rw [this]
      rfl
    · rw [if_neg (by simp [isIntKey, hj])]
      rw [ih (n + 1) j]
      by_cases hin : ((n : Int) + 1 ≤ j ∧ j < ((n : Int) + 1) + rest.length)
      · rw [if_pos (by push_cast; push_cast at hin; omega)]
        rw [if_pos (by simp; omega)]
        have h1 : (j - (n : Int)).toNat = (j - ((n : Int) + 1)).toNat + 1 := by omega
        rw [h1]
        have hc : ((n + 1 : Nat) : Int) = (n : Int) + 1 := by push_cast; ring
        rw [hc]
        rfl
      · rw [if_neg (by push_cast; push_cast at hin; omega)]
        rw [if_neg (by simp at hin ⊢; omega)]

theorem denseFrom_length : ∀ (vs : List Converted) (n : Nat),
    (denseFrom n vs).length = vs.length := by
  intro vs
  induction vs with
  | nil => intro n; rfl
  | cons v rest ih => intro n; simp [denseFrom, ih]

theorem toType_some_not_nil (t : PrimTy) (w : LValue) (c : Converted)
    (h : toType t w = some c) : is_nil w = false := by
  cases w <;> simp [is_nil]
  cases t <;> simp [toType] at h

/-- The array-construction loop succeeds when, walking up from `idx`,
every slot before step `steps` is present and convertible and the slot at
step `steps` is the first gap: it returns the accumulated prefix followed
by the converted elements, with the state unchanged. -/
theorem array_loop_ok_run (V : PrimTy) (entries : List (LValue × LValue)) :
    ∀ (steps fuel : Nat) (idx : Int) (acc : List Converted) (s : State),
    steps < fuel →
    (∀ q : Nat, q < steps → is_nil (tableGet entries (idx + (q : Int))) = false ∧
      (toType V (tableGet entries (idx + (q : Int)))).isSome = true) →
    is_nil (tableGet entries (idx + (steps : Int))) = true →
    array_loop V entries fuel idx acc s
      = (s, some (acc ++ gapRun V entries steps idx)) := by
  intro steps
  induction steps with
  | zero =>
    intro fuel idx acc s hfuel _ hnil
    cases fuel with
    | zero => omega
    | succ f =>
      have h0 : idx + ((0 : Nat) : Int) = idx := by push_cast; ring
      rw [h0] at hnil
      simp only [array_loop]
      rw [if_pos hnil, pop_push]
      simp [gapRun]
  | succ st ih =>
    intro fuel idx acc s hfuel hq hnil
    cases fuel with
    | zero => omega
    | succ f =>
      have h0 := hq 0 (by omega)
      have harg : idx + ((0 : Nat) : Int) = idx := by push_cast; ring
      rw [harg] at h0
      obtain ⟨cv, hcv⟩ := Option.isSome_iff_exists.mp h0.2
      simp only [array_loop]
      rw [if_neg (by rw [h0.1]; exact fun h => nomatch h)]
      rw [convert_single, hcv]
      show array_loop V entries f (idx + 1) (acc ++ [cv]) (pop (push s _) 1) = _
      rw [pop_push]
      rw [ih f (idx + 1) (acc ++ [cv]) s (by omega)
        (by
          intro q hq2
          have h2 := hq (q + 1) (by omega)
          have harg2 : idx + ((q + 1 : Nat) : Int) = idx + 1 + (q : Int) := by push_cast; ring
          rw [harg2] at h2
          exact h2)
        (by
          have harg2 : idx + ((st + 1 : Nat) : Int) = idx + 1 + (st : Int) := by push_cast; ring
          rw [harg2] at hnil
          exact hnil)]
      show (s, some ((acc ++ [cv]) ++ gapRun V entries st (idx + 1)))
        = (s, some (acc ++ gapRun V entries (st + 1) idx))
      have : gapRun V entries (st + 1) idx = cv :: gapRun V entries st (idx + 1) := by
        show (toType V (tableGet entries idx)).getD Converted.unit :: _ = _
        rw [hcv]
        rfl
      rw [this, List.append_assoc]
      rfl

/-- The collected run equals the range-indexed list of converted slots. -/
theorem gapRun_eq_map (V : PrimTy) (entries : List (LValue × LValue)) :
    ∀ (steps : Nat) (idx : Int),
    gapRun V entries steps idx = (List.range steps).map
      (fun q : Nat => (toType V (tableGet entries (idx + (q : Int)))).getD Converted.unit) := by
  intro steps
  induction steps with
  | zero => intro idx; rfl
  | succ st ih =>
    intro idx
    rw [List.range_succ_eq_map, List.map_cons, List.map_map]
    show (toType V (tableGet entries idx)).getD Converted.unit :: gapRun V entries st (idx + 1)
      = _ :: _
    congr 1
    · have : idx + ((0 : Nat) : Int) = idx := by push_cast; ring
      rw [this]
    · rw [ih (idx + 1)]
      apply List.map_congr_left
      intro a _
      show (toType V (tableGet entries (idx + 1 + (a : Int)))).getD Converted.unit
        = (toType V (tableGet entries (idx + ((Nat.succ a : Nat) : Int)))).getD Converted.unit
      have : idx + 1 + (a : Int) = idx + ((Nat.succ a : Nat) : Int) := by push_cast; ring
      rw [this]

theorem map_getD_range :
    ∀ (vs : List Converted),
    (List.range vs.length).map (fun q : Nat => vs.getD q Converted.unit) = vs := by
  intro vs
  apply List.ext_getElem (by simp)
  intro n h1 h2
  simp only [List.getElem_map, List.getElem_range]
  rw [List.getD_eq_getElem _ _ h2]

/-- C6: deconstructing a host sequence into an engine table and
reconstructing it via sequence construction yields the original sequence
exactly; and, for every table, sequence construction reads ascending
integer keys from 1 and stops at the first absent (nil) slot, returning
exactly the converted values at keys `1..m` when `m+1` is the first gap
(so a table with keys 1,2,4 reconstructs as only the first two
elements). -/
theorem sequence_round_trip_and_first_gap :
    (∀ (V : PrimTy) (vs : List Converted) (s : State),
      (∀ v ∈ vs, toType V (pushVal v) = some v) →
      (lua_array_from_lua V (lua_array_to_lua vs s) (-1)).2 = some vs) ∧
    (∀ (V : PrimTy) (s : State) (i : Int) (entries : List (LValue × LValue)) (m : Nat),
      getSlot s i = LValue.table entries →
      (∀ q : Nat, q ≤ m → 1 ≤ q → is_nil (tableGet entries (q : Int)) = false ∧
        (toType V (tableGet entries (q : Int))).isSome = true) →
      is_nil (tableGet entries ((m + 1 : Nat) : Int)) = true →
      (lua_array_from_lua V s i).2 = some (gapRun V entries m 1)) := by
  constructor
  · intro V vs s hv
    have hshape : lua_array_to_lua vs s = push s (LValue.table (denseFrom 1 vs)) := by
      unfold lua_array_to_lua
      have h := to_lua_loop_dense s vs 0 [] (by intro p hp; exact absurd hp (List.not_mem_nil p))
      have hc : ((0 : Nat) : Int) = (0 : Int) := by norm_num
      rw [hc] at h
      rw [h]
      simp
    rw [hshape]
    have hslot := getSlot_push_last_neg s (LValue.table (denseFrom 1 vs))
    simp only [lua_array_from_lua, hslot]
    have hconv : ∀ q : Nat, q < vs.length →
        is_nil (tableGet (denseFrom 1 vs) (1 + (q : Int))) = false ∧
        (toType V (tableGet (denseFrom 1 vs) (1 + (q : Int)))).isSome = true := by
      intro q hqlt
      rw [tableGet_denseFrom vs 1 (1 + (q : Int))]
      rw [if_pos (by refine ⟨by push_cast; omega, by push_cast; omega⟩)]
      have hidx : ((1 + (q : Int)) - ((1 : Nat) : Int)).toNat = q := by push_cast; omega
      rw [hidx]
      have hmem2 : vs.getD q Converted.unit ∈ vs := by
        rw [List.getD_eq_getElem _ _ hqlt]
        exact List.getElem_mem _
      have hvq := hv _ hmem2
      refine ⟨toType_some_not_nil V _ _ hvq, ?_⟩
      rw [hvq]
      rfl
    have hgap : is_nil (tableGet (denseFrom 1 vs) (1 + ((vs.length : Nat) : Int))) = true := by
      rw [tableGet_denseFrom vs 1]
      rw [if_neg (by rintro ⟨_, h2⟩; push_cast at h2; omega)]
      rfl
    rw [denseFrom_length]
    rw [array_loop_ok_run V (denseFrom 1 vs) vs.length (vs.length + 1) 1 []
      (push s (LValue.table (denseFrom 1 vs))) (by omega) hconv hgap]
    simp only [List.nil_append]
    have hrun : gapRun V (denseFrom 1 vs) vs.length 1 = vs := by
      rw [gapRun_eq_map]
      have hcong : ∀ q ∈ List.range vs.length,
          (toType V (tableGet (denseFrom 1 vs) (1 + (q : Int)))).getD Converted.unit
          = vs.getD q Converted.unit := by
        intro q hqmem
        have hqlt : q < vs.length := List.mem_range.mp hqmem
        rw [tableGet_denseFrom vs 1 (1 + (q : Int))]
        rw [if_pos (by refine ⟨by push_cast; omega, by push_cast; omega⟩)]
        have hidx : ((1 + (q : Int)) - ((1 : Nat) : Int)).toNat = q := by push_cast; omega
        rw [hidx]
        have hmem2 : vs.getD q Converted.unit ∈ vs := by
          rw [List.getD_eq_getElem _ _ hqlt]
          exact List.getElem_mem _
        rw [hv _ hmem2]
        rfl
      rw [List.map_congr_left hcong]
      exact map_getD_range vs
    rw [hrun]
  · intro V s i entries m htab hq hnil
    simp only [lua_array_from_lua, htab]
    have hm : m ≤ entries.length :=
      int_keys_pigeonhole m entries (fun q h1 h2 => (hq q h2 h1).1)
    rw [array_loop_ok_run V entries m (entries.length + 1) 1 [] s (by omega)
      (fun q hq2 => by
        have h2 := hq (q + 1) (by omega) (by omega)
        have harg : ((q + 1 : Nat) : Int) = 1 + (q : Int) := by push_cast; ring
        rw [harg] at h2
        exact h2)
      (by
        have harg : ((m + 1 : Nat) : Int) = 1 + (m : Int) := by push_cast; ring
        rw [harg] at hnil
        exact hnil)]
    simp

/-- Witness for C6 at concrete inputs: the host sequence (10, 20, 30)
deconstructed to a table and reconstructed yields (10, 20, 30) again, and
a table with keys 1, 2, 4 (3 missing) reconstructs as only the first two
elements. -/
theorem sequence_round_trip_and_first_gap_witness :
    (lua_array_from_lua PrimTy.int
      (lua_array_to_lua [Converted.vInt 10, Converted.vInt 20, Converted.vInt 30]
        (State.mk [] [])) (-1)).2
      = some [Converted.vInt 10, Converted.vInt 20, Converted.vInt 30] ∧
    (lua_array_from_lua PrimTy.int
      (State.mk [LValue.table [(LValue.integer 1, LValue.integer 10),
        (LValue.integer 2, LValue.integer 20), (LValue.integer 4, LValue.integer 40)]] []) 1).2
      = some [Converted.vInt 10, Converted.vInt 20] := by
  constructor
  · exact sequence_round_trip_and_first_gap.1 PrimTy.int
      [Converted.vInt 10, Converted.vInt 20, Converted.vInt 30] (State.mk [] []) (by decide)
  · exact sequence_round_trip_and_first_gap.2 PrimTy.int
      (State.mk [LValue.table [(LValue.integer 1, LValue.integer 10),
        (LValue.integer 2, LValue.integer 20), (LValue.integer 4, LValue.integer 40)]] []) 1
      [(LValue.integer 1, LValue.integer 10), (LValue.integer 2, LValue.integer 20),
        (LValue.integer 4, LValue.integer 40)] 2 rfl (by decide) (by decide)

/-- C5: if any entry of the table fails conversion — a key or a value for
map construction, or (for sequence construction) an element at a position
reached by the ascending scan, i.e. one preceded only by present,
convertible slots — the whole construction yields nothing, never a
partial collection. -/
theorem container_malformed_entry_yields_none
    (K V T : PrimTy) (s : State) (i : Int) (entries : List (LValue × LValue))
    (htab : getSlot s i = LValue.table entries) :
    ((∃ kv ∈ entries, toType K kv.1 = none ∨ toType V kv.2 = none) →
      (lua_table_from_lua K V s i).2 = none) ∧
    (∀ j : Nat, 1 ≤ j →
      (∀ q : Nat, q < j → 1 ≤ q →
        is_nil (tableGet entries (q : Int)) = false ∧
        (toType T (tableGet entries (q : Int))).isSome = true) →
      is_nil (tableGet entries (j : Int)) = false →
      toType T (tableGet entries (j : Int)) = none →
      (lua_array_from_lua T s i).2 = none) := by
  constructor
  · intro hex
    simp only [lua_table_from_lua, htab]
    exact table_next_loop_none K V entries [] _ hex
  · intro j hj hq hnil hfail
    simp only [lua_array_from_lua, htab]
    have hple : j ≤ entries.length := by
      apply int_keys_pigeonhole j entries
      intro q h1 h2
      by_cases hqj : q = j
      · subst hqj
        exact hnil
      · exact (hq q (by omega) h1).1
    apply array_loop_reach_fail T entries (j - 1) _ 1 [] s (by omega)
    · intro q hq2
      have h2 := hq (q + 1) (by omega) (by omega)
      have harg : ((q + 1 : Nat) : Int) = 1 + (q : Int) := by push_cast; ring
      rw [harg] at h2
      exact h2
    · have harg : ((j : Nat) : Int) = 1 + ((j - 1 : Nat) : Int) := by omega
      rw [harg] at hnil
      exact hnil
    · have harg : ((j : Nat) : Int) = 1 + ((j - 1 : Nat) : Int) := by omega
      rw [harg] at hfail
      exact hfail

/-- Witness for C5 at concrete inputs: a five-entry string-keyed table
whose third value is a boolean instead of an integer yields nothing as a
map, and a five-element dense array whose third element is a string
instead of an integer yields nothing as a sequence. -/
theorem container_malformed_entry_yields_none_witness :
    (lua_table_from_lua PrimTy.str PrimTy.int
      (State.mk [LValue.table [(LValue.str "a", LValue.integer 1),
        (LValue.str "b", LValue.integer 2), (LValue.str "c", LValue.boolean true),
        (LValue.str "d", LValue.integer 4), (LValue.str "e", LValue.integer 5)]] []) 1).2
      = none ∧
    (lua_array_from_lua PrimTy.int
      (State.mk [LValue.table [(LValue.integer 1, LValue.integer 10),
        (LValue.integer 2, LValue.integer 20), (LValue.integer 3, LValue.str "bad"),
        (LValue.integer 4, LValue.integer 40), (LValue.integer 5, LValue.integer 50)]] []) 1).2
      = none := by
  constructor
  · exact (container_malformed_entry_yields_none PrimTy.str PrimTy.int PrimTy.int
      (State.mk [LValue.table [(LValue.str "a", LValue.integer 1),
        (LValue.str "b", LValue.integer 2), (LValue.str "c", LValue.boolean true),
        (LValue.str "d", LValue.integer 4), (LValue.str "e", LValue.integer 5)]] []) 1
      [(LValue.str "a", LValue.integer 1), (LValue.str "b", LValue.integer 2),
        (LValue.str "c", LValue.boolean true), (LValue.str "d", LValue.integer 4),
        (LValue.str "e", LValue.integer 5)] rfl).1
      ⟨(LValue.str "c", LValue.boolean true), by simp, Or.inr rfl⟩
  · exact (container_malformed_entry_yields_none PrimTy.str PrimTy.int PrimTy.int
      (State.mk [LValue.table [(LValue.integer 1, LValue.integer 10),
        (LValue.integer 2, LValue.integer 20), (LValue.integer 3, LValue.str "bad"),
        (LValue.integer 4, LValue.integer 40), (LValue.integer 5, LValue.integer 50)]] []) 1
      [(LValue.integer 1, LValue.integer 10), (LValue.integer 2, LValue.integer 20),
        (LValue.integer 3, LValue.str "bad"), (LValue.integer 4, LValue.integer 40),
        (LValue.integer 5, LValue.integer 50)] rfl).2
      3 (by omega) (by decide) (by decide) (by decide)

/-! ### Userdata protocol lemmas -/

theorem meta_name_injective (n m : String) (h : n ≠ m) : meta_name n ≠ meta_name m := by
  intro he
  apply h
  unfold meta_name at he
  have hd : n.data ++ (".Rust" : String).data = m.data ++ (".Rust" : String).data := by
    have := congrArg String.data he
    simpa [String.data_append] using this
  exact congrArg String.mk (List.append_cancel_right hd)

/-- C7: storing a host value through the typed external-object protocol
and loading it back from that slot requesting the same registered type
yields the original value; requesting a different type at that slot, or
loading from a slot that holds no opaque cell at all, yields nothing. -/
theorem userdata_round_trip_and_tag_check (n m : String) (p : Int) (s : State) :
    ud_from_lua n (ud_to_lua n p s) (-1) = some p ∧
    (n ≠ m → ud_from_lua m (ud_to_lua n p s) (-1) = none) ∧
    (∀ i : Int, (∀ tag q, getSlot s i ≠ LValue.udata tag q) → ud_from_lua n s i = none) := by
  refine ⟨?_, ?_, ?_⟩
  · unfold ud_from_lua ud_to_lua
    rw [getSlot_push_last_neg]
    simp
  · intro hnm
    unfold ud_from_lua ud_to_lua
    rw [getSlot_push_last_neg]
    simp only
    rw [if_neg (meta_name_injective n m hnm)]
  · intro i hno
    unfold ud_from_lua
    cases hslot : getSlot s i
    case udata tag q => exact absurd hslot (hno tag q)
    all_goals rfl

/-- Witness for C7 at concrete inputs: type tag "A", payload 5; the same
slot requested as type "B" yields nothing, as does a boolean slot. -/
theorem userdata_round_trip_and_tag_check_witness :
    ud_from_lua "A" (ud_to_lua "A" 5 (State.mk [LValue.boolean true] [])) (-1) = some 5 ∧
    ud_from_lua "B" (ud_to_lua "A" 5 (State.mk [LValue.boolean true] [])) (-1) = none ∧
    ud_from_lua "A" (State.mk [LValue.boolean true] []) 1 = none := by
  have h := userdata_round_trip_and_tag_check "A" "B" 5 (State.mk [LValue.boolean true] [])
  exact ⟨h.1, h.2.1 (by decide), h.2.2 1 (fun tag q hcon => nomatch hcon)⟩

/-! ### Registration (attach) lemmas -/

theorem set_field_push (s0 : State) (name k f : String) :
    set_field (push (push s0 (LValue.tref name)) (LValue.func f)) (-2) k
      = State.mk (s0.stack ++ [LValue.tref name])
          (registrySetField s0.registry name k f) := by
  unfold set_field
  simp only
  have habs : absIndex (push (push s0 (LValue.tref name)) (LValue.func f)) (-2)
      = (s0.stack.length : Int) + 1 := by
    unfold absIndex
    rw [if_pos (by norm_num)]
    have htop : (push (push s0 (LValue.tref name)) (LValue.func f)).get_top
        = (s0.stack.length : Int) + 2 := by
      simp [State.get_top, push]
    rw [htop]
    ring
  rw [habs, getSlot_push_last_neg, getSlot_push_one, pop_push]
  rfl

theorem pop_append (l : List LValue) (reg : List (String × List (String × String)))
    (x : LValue) : pop (State.mk (l ++ [x]) reg) 1 = State.mk l reg :=
  pop_push (State.mk l reg) x

theorem attach_fold (name : String) :
    ∀ (ms : List (String × String)) (l : List LValue)
      (reg : List (String × List (String × String))),
    List.foldl (fun st m => set_field (push st (LValue.func m.2)) (-2) m.1)
      (State.mk (l ++ [LValue.tref name]) reg) ms
    = State.mk (l ++ [LValue.tref name])
        (ms.foldl (fun r m => registrySetField r name m.1 m.2) reg) := by
  intro ms
  induction ms with
  | nil => intro l reg; rfl
  | cons m rest ih =>
    intro l reg
    simp only [List.foldl_cons]
    have hstep : set_field (push (State.mk (l ++ [LValue.tref name]) reg)
        (LValue.func m.2)) (-2) m.1
        = State.mk (l ++ [LValue.tref name]) (registrySetField reg name m.1 m.2) :=
      set_field_push (State.mk l reg) name m.1 m.2
    rw [hstep, ih l (registrySetField reg name m.1 m.2)]

/-- Full evaluation of `attach`: the resulting state and outcome as a
function of whether the metatable name was already registered. -/
theorem attach_state (n : String) (ms : List (String × String)) (s : State) :
    attach n ms s
      = (State.mk s.stack
          (ms.foldl (fun r m => registrySetField r (meta_name n) m.1 m.2)
            (match lookupMeta s.registry (meta_name n) with
             | some _ => s.registry
             | none => s.registry ++ [(meta_name n, [])])),
         match lookupMeta s.registry (meta_name n) with
         | some _ => Except.error ("Metatable " ++ meta_name n ++ " already exists.")
         | none => Except.ok ()) := by
  simp only [attach, new_metatable]
  cases hl : lookupMeta s.registry (meta_name n) with
  | some flds =>
    simp only
    have hinit : ({ s with stack := s.stack ++ [LValue.tref (meta_name n)] } : State)
        = State.mk (s.stack ++ [LValue.tref (meta_name n)]) s.registry := rfl
    rw [hinit, attach_fold, pop_append]
    simp
  | none =>
    simp only
    rw [attach_fold, pop_append]
    simp

theorem lookupMeta_append_self (reg : List (String × List (String × String)))
    (n : String) (h : lookupMeta reg n = none) :
    lookupMeta (reg ++ [(n, [])]) n = some [] := by
  unfold lookupMeta at h ⊢
  rw [List.find?_append]
  have hf : List.find? (fun p => p.1 == n) reg = none := by
    cases hx : List.find? (fun p => p.1 == n) reg
    · rfl
    · rw [hx] at h
      exact nomatch h
  rw [hf]
  simp [List.find?]

theorem lookupMeta_append_other (reg : List (String × List (String × String)))
    (n x : String) (h : x ≠ n) :
    lookupMeta (reg ++ [(n, [])]) x = lookupMeta reg x := by
  unfold lookupMeta
  rw [List.find?_append]
  cases hf : List.find? (fun p => p.1 == x) reg
  · have hne : (n == x) = false := by
      simp
      exact Ne.symm h
    simp [List.find?, hne]
  · simp

theorem lookupMeta_registrySetField_eq (n k f : String) :
    ∀ reg, lookupMeta (registrySetField reg n k f) n
      = (lookupMeta reg n).map (fun flds => fieldInsert flds k f) := by
  intro reg
  induction reg with
  | nil => rfl
  | cons p rest ih =>
    show lookupMeta (registrySetField (p :: rest) n k f) n = _
    unfold registrySetField
    rw [List.map_cons]
    by_cases hp : (p.1 == n) = true
    · rw [if_pos hp]
      simp [lookupMeta, List.find?_cons, hp]
    · rw [if_neg hp]
      have hpf : (p.1 == n) = false := by
        cases hb : (p.1 == n)
        · rfl
        · exact absurd hb hp
      simpa [lookupMeta, registrySetField, List.find?_cons, hpf] using ih

theorem lookupMeta_registrySetField_ne (n k f x : String) (h : x ≠ n) :
    ∀ reg, lookupMeta (registrySetField reg n k f) x = lookupMeta reg x := by
  intro reg
  induction reg with
  | nil => rfl
  | cons p rest ih =>
    show lookupMeta (registrySetField (p :: rest) n k f) x = _
    unfold registrySetField
    rw [List.map_cons]
    by_cases hp : (p.1 == n) = true
    · rw [if_pos hp]
      have hx : (p.1 == x) = false := by
        have hpn : p.1 = n := by simpa using hp
        simp [hpn]
        exact Ne.symm h
      simpa [lookupMeta, registrySetField, List.find?_cons, hx] using ih
    · rw [if_neg hp]
      cases hx : (p.1 == x)
      · simpa [lookupMeta, registrySetField, List.find?_cons, hx] using ih
      · simp [lookupMeta, List.find?_cons, hx]

theorem lookupMeta_fold_eq (n : String) :
    ∀ (ms : List (String × String)) (reg : List (String × List (String × String))),
    lookupMeta (ms.foldl (fun r m => registrySetField r n m.1 m.2) reg) n
      = (lookupMeta reg n).map
        (fun flds => ms.foldl (fun fl m => fieldInsert fl m.1 m.2) flds) := by
  intro ms
  induction ms with
  | nil =>
    intro reg
    simp [Option.map_id]
  | cons m rest ih =>
    intro reg
    simp only [List.foldl_cons]
    rw [ih, lookupMeta_registrySetField_eq]
    cases lookupMeta reg n <;> rfl

theorem lookupMeta_fold_ne (n x : String) (h : x ≠ n) :
    ∀ (ms : List (String × String)) (reg : List (String × List (String × String))),
    lookupMeta (ms.foldl (fun r m => registrySetField r n m.1 m.2) reg) x
      = lookupMeta reg x := by
  intro ms
  induction ms with
  | nil => intro reg; rfl
  | cons m rest ih =>
    intro reg
    simp only [List.foldl_cons]
    rw [ih, lookupMeta_registrySetField_ne n m.1 m.2 x h]

theorem attach_snd (n : String) (ms : List (String × String)) (s : State) :
    (attach n ms s).2
      = (match lookupMeta s.registry (meta_name n) with
         | some _ => Except.error ("Metatable " ++ meta_name n ++ " already exists.")
         | none => Except.ok ()) := by
  rw [attach_state]

theorem attach_lookup_self (n : String) (ms : List (String × String)) (s : State) :
    ∃ flds, lookupMeta (attach n ms s).1.registry (meta_name n) = some flds := by
  rw [attach_state]
  simp only
  rw [lookupMeta_fold_eq]
  cases hl : lookupMeta s.registry (meta_name n) with
  | some flds =>
    simp only
    rw [hl]
    exact ⟨_, rfl⟩
  | none =>
    simp only
    rw [lookupMeta_append_self _ _ hl]
    exact ⟨_, rfl⟩

theorem attach_lookup_ne (n : String) (ms : List (String × String)) (s : State)
    (x : String) (hx : x ≠ meta_name n) :
    lookupMeta (attach n ms s).1.registry x = lookupMeta s.registry x := by
  rw [attach_state]
  simp only
  rw [lookupMeta_fold_ne _ _ hx]
  cases hl : lookupMeta s.registry (meta_name n) with
  | some flds => simp only
  | none =>
    simp only
    rw [lookupMeta_append_other _ _ _ hx]

/-- C8: registering the same type tag twice in one engine instance is
fatal — the second `attach` ends in the `panic!` (modelled as the error
outcome) rather than a normal return — while two distinct host type
names always produce distinct tags ("name" ++ ".Rust"), so registering
two distinct types in sequence never collides. -/
theorem duplicate_tag_fatal_distinct_tags_never_collide :
    (∀ (n : String) (ms ms' : List (String × String)) (s : State),
      (attach n ms' (attach n ms s).1).2
        = Except.error ("Metatable " ++ meta_name n ++ " already exists.")) ∧
    (∀ n1 n2 : String, n1 ≠ n2 → meta_name n1 ≠ meta_name n2) ∧
    (∀ (n1 n2 : String) (ms1 ms2 : List (String × String)) (s : State), n1 ≠ n2 →
      lookupMeta s.registry (meta_name n2) = none →
      (attach n2 ms2 (attach n1 ms1 s).1).2 = Except.ok ()) := by
  refine ⟨?_, meta_name_injective, ?_⟩
  · intro n ms ms' s
    rw [attach_snd]
    obtain ⟨flds, hf⟩ := attach_lookup_self n ms s
    rw [hf]
  · intro n1 n2 ms1 ms2 s hne hnone
    rw [attach_snd]
    rw [attach_lookup_ne n1 ms1 s (meta_name n2) (meta_name_injective n2 n1 (Ne.symm hne))]
    rw [hnone]

/-- Witness for C8 at concrete inputs: attaching "Foo" then "Bar" on a
fresh engine succeeds both times; attaching "Foo" twice makes the second
call fatal. -/
theorem duplicate_tag_fatal_distinct_tags_never_collide_witness :
    (attach "Bar" [] (attach "Foo" [] (State.mk [] [])).1).2 = Except.ok () ∧
    meta_name "Foo" ≠ meta_name "Bar" ∧
    (attach "Foo" [] (attach "Foo" [] (State.mk [] [])).1).2
      = Except.error ("Metatable " ++ meta_name "Foo" ++ " already exists.") := by
  refine ⟨?_, ?_, ?_⟩
  · exact duplicate_tag_fatal_distinct_tags_never_collide.2.2 "Foo" "Bar" [] []
      (State.mk [] []) (by decide) rfl
  · exact duplicate_tag_fatal_distinct_tags_never_collide.2.1 "Foo" "Bar" (by decide)
  · exact duplicate_tag_fatal_distinct_tags_never_collide.1 "Foo" [] [] (State.mk [] [])

/-- C10: when `attach` is called for a type whose tag is already
registered, it is not atomic: every listed method is still installed
into the existing metatable, and the metatable is popped from the stack,
before the fatal panic is raised — so the engine's method table for that
tag is mutated even on the fatal-error path. -/
theorem attach_duplicate_mutates_before_panic (n : String)
    (ms flds : List (String × String)) (s : State)
    (h : lookupMeta s.registry (meta_name n) = some flds) :
    (attach n ms s).2 = Except.error ("Metatable " ++ meta_name n ++ " already exists.") ∧
    lookupMeta (attach n ms s).1.registry (meta_name n)
      = some (ms.foldl (fun fl m => fieldInsert fl m.1 m.2) flds) ∧
    (attach n ms s).1.stack = s.stack := by
  refine ⟨?_, ?_, ?_⟩
  · rw [attach_snd, h]
  · rw [attach_state]
    simp only
    rw [h]
    simp only
    rw [lookupMeta_fold_eq, h]
    rfl
  · rw [attach_state]

/-- Witness for C10 at a concrete input: the tag "T.Rust" is already
registered with no methods; attaching type "T" with one method fails
fatally, yet the method lands in the registry and the stack is back to
its entry height. -/
theorem attach_duplicate_mutates_before_panic_witness :
    (attach "T" [("m1", "f1")] (State.mk [] [("T.Rust", [])])).2
      = Except.error ("Metatable " ++ meta_name "T" ++ " already exists.") ∧
    lookupMeta (attach "T" [("m1", "f1")] (State.mk [] [("T.Rust", [])])).1.registry
      (meta_name "T") = some [("m1", "f1")] ∧
    (attach "T" [("m1", "f1")] (State.mk [] [("T.Rust", [])])).1.stack = [] := by
  have h := attach_duplicate_mutates_before_panic "T" [("m1", "f1")] []
    (State.mk [] [("T.Rust", [])]) (by decide)
  exact ⟨h.1, h.2.1, h.2.2⟩

/-- C3: whenever the arity checks pass and position `p` is the first
(leftmost) selector whose slot fails to convert, `convert_arguments!`
fails with exactly the 1-based position `p`, whatever the later
selectors would do; no tuple is returned, and a wildcard selector is
never the reported failing position. -/
theorem convert_arguments_first_failure (strict : Bool) (sels : List Selector)
    (s : State) (p : Nat) (t : PrimTy)
    (hu : (sels.length : Int) ≤ s.get_top)
    (ho : strict = true → s.get_top = (sels.length : Int))
    (hp1 : 1 ≤ p) (hpL : p ≤ sels.length)
    (hsel : sels.getD (p - 1) Selector.wild = Selector.prim t)
    (hfail : toType t (getSlot s (s.get_top - (sels.length : Int) + (p : Int))) = none)
    (hbefore : ∀ q : Nat, q < p → 1 ≤ q →
      convOk (sels.getD (q - 1) Selector.wild)
        (getSlot s (s.get_top - (sels.length : Int) + (q : Int))) = true) :
    (convert_arguments strict sels s).2 = Except.error (p : Int) ∧
    (∀ w : Nat, w < sels.length → sels.getD w Selector.wild = Selector.wild →
      (convert_arguments strict sels s).2 ≠ Except.error ((w : Int) + 1)) := by
  have hmain : (convert_arguments strict sels s).2 = Except.error (p : Int) := by
    rw [convert_arguments_eq]
    show collect strict sels s.get_top s = _
    simp only [collect]
    rw [if_neg (by omega)]
    rw [if_neg (by
      rintro ⟨h1, h2⟩
      rw [ho h1] at h2
      omega)]
    have hloop := collectLoop_fail s (s.get_top - (sels.length : Int)) sels 1 (p - 1) t
      hsel
      (by
        have harg : s.get_top - (sels.length : Int) + 1 + ((p - 1 : Nat) : Int)
            = s.get_top - (sels.length : Int) + (p : Int) := by
          have : ((p - 1 : Nat) : Int) = (p : Int) - 1 := by omega
          rw [this]
          ring
        rw [harg]
        exact hfail)
      (by
        intro k hk
        have h2 := hbefore (k + 1) (by omega) (by omega)
        have harg : s.get_top - (sels.length : Int) + ((k + 1 : Nat) : Int)
            = s.get_top - (sels.length : Int) + 1 + (k : Int) := by push_cast; ring
        rw [harg] at h2
        simpa using h2)
    rw [hloop]
    have : (1 : Int) + ((p - 1 : Nat) : Int) = (p : Int) := by omega
    rw [this]
  refine ⟨hmain, ?_⟩
  intro w hw hwild hcontra
  rw [hmain] at hcontra
  have hpw : (p : Int) = (w : Int) + 1 := by
    injection hcontra
  have : p - 1 = w := by omega
  rw [this, hwild] at hsel
  exact nomatch hsel

/-- Witness for C3 at a concrete input: permissive call, selectors
(int, string) against the stack slots (7, true) sitting above one extra
value; the first selector converts, the second fails, so the call fails
with position 2. -/
theorem convert_arguments_first_failure_witness :
    (convert_arguments false [Selector.prim PrimTy.int, Selector.prim PrimTy.str]
      (State.mk [LValue.nil, LValue.integer 7, LValue.boolean true] [])).2
      = Except.error 2 := by
  have h := (convert_arguments_first_failure false
    [Selector.prim PrimTy.int, Selector.prim PrimTy.str]
    (State.mk [LValue.nil, LValue.integer 7, LValue.boolean true] [])
    2 PrimTy.str (by decide) (by decide) (by decide) (by decide) (by decide) (by decide)
    (by decide)).1
  simpa using h

end LuaMacros
